import Mathlib

/-!
Shallow embedding of the elba package cache subsystem.

The embedding covers the code in src/lib/retrieve/cache.rs together with the
identity model in src/lib/package/mod.rs and src/lib/package/manifest.rs.
Collaborator modules of the repository that are not under src
(package/resolution.rs with DirectRes and IndexRes, util with hexify_hash and
DirLock, resolve/solve.rs with Solve) are modelled from the spec; each such
definition carries a doc comment saying so.

Modelling conventions:
  - Rust strings are Lean String values; the byte streams fed to the SHA-256
    hasher are lists of characters (UTF-8 encoding is injective, so character
    lists are a faithful stand-in for byte slices).
  - The SHA-256 digest function is a parameter hf of every hashing definition;
    collision resistance of the real function is an explicit injectivity
    hypothesis on hf where a claim needs it.
  - Filesystem effects are explicit state passing over FSState; fallible
    operations return Except or Option.
-/

namespace Elba

/-! ### Hex encoding (util::hexify_hash, modelled from the spec) -/

/-- Hex digit character for a value below 16 (0-9 then a-f). -/
def hexDigit (n : Nat) : Char :=
  if n < 10 then Char.ofNat (48 + n) else Char.ofNat (87 + n)

/-- Modelled from the spec: hexify_hash (util module, not under src) hex-encodes
a digest.  Each abstract byte (here: a character) becomes a fixed-width run of
six hex digits, so the encoding is injective and its output consists of hex
digit characters only. -/
def hexifyChar (c : Char) : List Char :=
  [hexDigit (c.toNat / 1048576 % 16), hexDigit (c.toNat / 65536 % 16),
   hexDigit (c.toNat / 4096 % 16), hexDigit (c.toNat / 256 % 16),
   hexDigit (c.toNat / 16 % 16), hexDigit (c.toNat % 16)]

/-- Modelled from the spec: hex encoding of a whole digest. -/
def hexify (l : List Char) : List Char := l.flatMap hexifyChar

theorem hexDigit_inj_fin : ∀ a b : Fin 16, hexDigit a.val = hexDigit b.val → a = b := by
  decide

theorem hexDigit_ne_dash : ∀ a : Fin 16, hexDigit a.val ≠ '-' := by decide

theorem hexDigit_inj (a b : Nat) (ha : a < 16) (hb : b < 16)
    (h : hexDigit a = hexDigit b) : a = b :=
  congrArg Fin.val (hexDigit_inj_fin ⟨a, ha⟩ ⟨b, hb⟩ h)

theorem char_toNat_lt (c : Char) : c.toNat < 1114112 := by
  rcases c.valid with h | ⟨_, h⟩
  · exact Nat.lt_trans h (by decide)
  · exact h

theorem hexifyChar_inj : Function.Injective hexifyChar := by
  intro c1 c2 h
  have hb1 := char_toNat_lt c1
  have hb2 := char_toNat_lt c2
  simp only [hexifyChar, List.cons.injEq, and_true] at h
  obtain ⟨e1, e2, e3, e4, e5, e6⟩ := h
  have m16 : (0 : Nat) < 16 := by decide
  have q1 := hexDigit_inj _ _ (Nat.mod_lt _ m16) (Nat.mod_lt _ m16) e1
  have q2 := hexDigit_inj _ _ (Nat.mod_lt _ m16) (Nat.mod_lt _ m16) e2
  have q3 := hexDigit_inj _ _ (Nat.mod_lt _ m16) (Nat.mod_lt _ m16) e3
  have q4 := hexDigit_inj _ _ (Nat.mod_lt _ m16) (Nat.mod_lt _ m16) e4
  have q5 := hexDigit_inj _ _ (Nat.mod_lt _ m16) (Nat.mod_lt _ m16) e5
  have q6 := hexDigit_inj _ _ (Nat.mod_lt _ m16) (Nat.mod_lt _ m16) e6
  have hn : c1.toNat = c2.toNat := by omega
  have : Char.ofNat c1.toNat = Char.ofNat c2.toNat := congrArg Char.ofNat hn
  rwa [Char.ofNat_toNat, Char.ofNat_toNat] at this

theorem hexifyChar_length (c : Char) : (hexifyChar c).length = 6 := rfl

theorem hexify_inj : Function.Injective hexify := by
  intro l1 l2 h
  induction l1 generalizing l2 with
  | nil =>
    cases l2 with
    | nil => rfl
    | cons b t => simp [hexify, hexifyChar] at h
  | cons a t ih =>
    cases l2 with
    | nil => simp [hexify, hexifyChar] at h
    | cons b t2 =>
      simp only [hexify, List.flatMap_cons] at h
      obtain ⟨hb, ht⟩ :=
        List.append_inj h (by rw [hexifyChar_length, hexifyChar_length])
      exact congrArg₂ List.cons (hexifyChar_inj hb) (ih ht)

theorem dash_not_mem_hexifyChar (c : Char) : '-' ∉ hexifyChar c := by
  intro hmem
  simp only [hexifyChar, List.mem_cons, List.not_mem_nil, or_false] at hmem
  have hne : ∀ m : Nat, hexDigit (m % 16) ≠ '-' := fun m =>
    hexDigit_ne_dash ⟨m % 16, Nat.mod_lt _ (by decide)⟩
  rcases hmem with h | h | h | h | h | h <;> exact hne _ h.symm

theorem dash_not_mem_hexify (l : List Char) : '-' ∉ hexify l := by
  intro hmem
  rcases List.mem_flatMap.mp hmem with ⟨c, _, hc⟩
  exact dash_not_mem_hexifyChar c hc

/-! ### String plumbing -/

theorem str_data_append (s t : String) : (s ++ t).data = s.data ++ t.data := rfl

theorem str_ext {s t : String} (h : s.data = t.data) : s = t := by
  cases s; cases t; cases h; rfl

theorem str_mk_data (s : String) : String.mk s.data = s := rfl

/-- Split a character list at its first occurrence of a separator, keeping the
occurrence positions unique: the left part never contains the separator. -/
theorem sep_split {sep : Char} :
    ∀ {l1 l2 r1 r2 : List Char}, sep ∉ l1 → sep ∉ l2 →
      l1 ++ sep :: r1 = l2 ++ sep :: r2 → l1 = l2 ∧ r1 = r2 := by
  intro l1
  induction l1 with
  | nil =>
    intro l2 r1 r2 _ h2 h
    cases l2 with
    | nil => simpa using h
    | cons c t =>
      simp only [List.nil_append, List.cons_append, List.cons.injEq] at h
      exact absurd (h.1 ▸ List.mem_cons_self c t) h2
  | cons c t ih =>
    intro l2 r1 r2 h1 h2 h
    cases l2 with
    | nil =>
      simp only [List.cons_append, List.nil_append, List.cons.injEq] at h
      exact absurd (h.1.symm ▸ List.mem_cons_self c t) h1
    | cons d t2 =>
      simp only [List.cons_append, List.cons.injEq] at h
      have h1t : sep ∉ t := fun hm => h1 (List.mem_cons_of_mem c hm)
      have h2t : sep ∉ t2 := fun hm => h2 (List.mem_cons_of_mem d hm)
      obtain ⟨hl, hr⟩ := ih h1t h2t h.2
      exact ⟨by rw [h.1, hl], hr⟩

/-- Two lists split identically around two distinct separators only when the
parts agree. -/
theorem two_sep_split {x y : Char} (hxy : x ≠ y) :
    ∀ {a1 b1 a2 b2 : List Char},
      a1 ++ x :: b1 = a2 ++ x :: b2 → a1 ++ y :: b1 = a2 ++ y :: b2 →
      a1 = a2 ∧ b1 = b2 := by
  intro a1
  induction a1 with
  | nil =>
    intro b1 a2 b2 hx hy
    cases a2 with
    | nil => simpa using hx
    | cons c t =>
      simp only [List.nil_append, List.cons_append, List.cons.injEq] at hx hy
      exact absurd (hx.1.trans hy.1.symm) hxy
  | cons c t ih =>
    intro b1 a2 b2 hx hy
    cases a2 with
    | nil =>
      simp only [List.cons_append, List.nil_append, List.cons.injEq] at hx hy
      exact absurd (hx.1.symm.trans hy.1) hxy
    | cons d t2 =>
      simp only [List.cons_append, List.cons.injEq] at hx hy
      obtain ⟨hl, hr⟩ := ih hx.2 hy.2
      exact ⟨by rw [hx.1, hl], hr⟩

/-! ### Package identity model -/

/-- Name from package/mod.rs: a group and a name; the serialized form built by
Name::new is group, slash, name. -/
structure Name where
  group : String
  name : String
deriving DecidableEq

/-- The serialization field of Name, as built by Name::new. -/
def Name.str (n : Name) : String := n.group ++ "/" ++ n.name

/-- The external semver::Version is modelled opaquely by its display string
(the code only ever compares versions and feeds their display form to
hashers). -/
structure Version where
  str : String
deriving DecidableEq

/-- ChecksumFmt from package/mod.rs (serde lowercase tag). -/
inductive ChecksumFmt where
  | Sha512 : ChecksumFmt
deriving DecidableEq

def ChecksumFmt.toString : ChecksumFmt → String
  | .Sha512 => "sha512"

/-- Checksum from package/mod.rs: a format tag and a hex digest string. -/
structure Checksum where
  fmt : ChecksumFmt
  hash : String
deriving DecidableEq

/-- Modelled from the spec: checksum serialization is the algorithm tag, a
colon, and the digest. -/
def Checksum.toString (c : Checksum) : String :=
  c.fmt.toString ++ ":" ++ c.hash

/-- PkgGitSpecifier from package/manifest.rs. -/
inductive PkgGitSpecifier where
  | Branch : String → PkgGitSpecifier
  | Commit : String → PkgGitSpecifier
  | Tag : String → PkgGitSpecifier
deriving DecidableEq

/-- The Display impl for PkgGitSpecifier in package/manifest.rs: all three
variants are written with the branch tag. -/
def PkgGitSpecifier.toString : PkgGitSpecifier → String
  | .Branch a => "branch=" ++ a
  | .Commit a => "branch=" ++ a
  | .Tag a => "branch=" ++ a

/-- Modelled from the spec: DirectRes (package/resolution.rs, not under src) is
the tagged union of directly fetchable locations Dir, Git and Tar.  The field
shapes match the uses in cache.rs and manifest.rs: Dir has a url path, Git has
a repo and a git specifier, Tar has a url and an optional checksum. -/
inductive DirectRes where
  | Dir : String → DirectRes
  | Git : String → PkgGitSpecifier → DirectRes
  | Tar : String → Option String → DirectRes
deriving DecidableEq

/-- Modelled from the spec: a locator serializes as its scheme tag, a plus
sign, and its url; a git locator is pinned by its repo and its specifier, with
the specifier written by the Display impl of PkgGitSpecifier. -/
def DirectRes.toString : DirectRes → String
  | .Dir url => "dir+" ++ url
  | .Git repo tag => "git+" ++ repo ++ "#" ++ tag.toString
  | .Tar url _ => "tar+" ++ url

def DirectRes.isDir : DirectRes → Bool
  | .Dir _ => true
  | _ => false

def DirectRes.isTar : DirectRes → Bool
  | .Tar _ _ => true
  | _ => false

/-- Resolution from package/mod.rs: the possible origins of a package.  The
git tag is carried as the PkgGitSpecifier that manifest.rs supplies through
into_dep. -/
inductive Resolution where
  | Git : String → PkgGitSpecifier → Resolution
  | Dir : String → Resolution
  | Tar : String → Resolution
  | Index : String → Resolution
deriving DecidableEq

/-- Display for Resolution from package/mod.rs: scheme plus url for Dir, Tar
and Index.  The Git arm of the source Display is unimplemented; it is modelled
from the spec for totality (scheme, repo, and the specifier). -/
def Resolution.toString : Resolution → String
  | .Dir url => "dir+" ++ url
  | .Index url => "index+" ++ url
  | .Tar url => "tar+" ++ url
  | .Git repo tag => "git+" ++ repo ++ "#" ++ tag.toString

/-- Modelled from the spec: IndexRes (package/resolution.rs, not under src)
names an index by its url. -/
structure IndexRes where
  url : String
deriving DecidableEq

/-- Modelled from the spec: the Into conversion from an index locator to a
Resolution used by DepReq::into_dep. -/
def IndexRes.toResolution (i : IndexRes) : Resolution := Resolution.Index i.url

/-- Modelled from the spec: the Into conversion from a direct locator to a
Resolution used by DepReq::into_dep. -/
def DirectRes.toResolution : DirectRes → Resolution
  | .Dir url => Resolution.Dir url
  | .Git repo tag => Resolution.Git repo tag
  | .Tar url _ => Resolution.Tar url

/-- PackageId as constructed at the PackageId::new call sites in
package/manifest.rs (name and resolution; the version of a resolved package is
carried separately by Summary in cache.rs). -/
structure PackageId where
  name : Name
  resolution : Resolution
deriving DecidableEq

/-- Modelled from the spec: a PackageId serializes as the name, a space, and
the resolution. -/
def PackageId.toString (p : PackageId) : String :=
  p.name.str ++ " " ++ p.resolution.toString

/-- Summary with the fields accessed by Build::new in cache.rs: a package id,
a resolved version, and a content checksum. -/
structure Summary where
  id : PackageId
  version : Version
  hash : Checksum
deriving DecidableEq

/-- Modelled from the spec: an element of the ordered sub-tree sequence the
resolver graph returns (resolve/solve.rs is not under src); cache.rs reads its
summary field. -/
structure ResolvedNode where
  summary : Summary
deriving DecidableEq

/-- Modelled from the spec: the resolver graph exposes sub_tree, returning the
deterministically ordered transitive closure of a summary, or a not-found
failure (modelled as none). -/
structure Solve where
  subTree : Summary → Option (List ResolvedNode)

/-! ### Manifest model (package/manifest.rs) -/

/-- The external version-constraint type is modelled opaquely; the code uses
Constraint::any for local and git requirements. -/
inductive Constraint where
  | any : Constraint
  | range : String → Constraint
deriving DecidableEq

/-- DepReq from package/manifest.rs. -/
inductive DepReq where
  | Registry : Constraint → DepReq
  | RegLong : Constraint → IndexRes → DepReq
  | Local : String → DepReq
  | Git : String → PkgGitSpecifier → DepReq
deriving DecidableEq

/-- DepReq::into_dep from package/manifest.rs. -/
def DepReq.intoDep : DepReq → IndexRes → Name → PackageId × Constraint
  | .Registry c, defIndex, n => ({ name := n, resolution := defIndex.toResolution }, c)
  | .RegLong con registry, _, n => ({ name := n, resolution := registry.toResolution }, con)
  | .Local path, _, n => ({ name := n, resolution := DirectRes.toResolution (.Dir path) }, Constraint.any)
  | .Git git spec, _, n => ({ name := n, resolution := DirectRes.toResolution (.Git git spec) }, Constraint.any)

/-- Parsed manifest, per the external-interface section of the spec: a version
and ordered dependency tables (ordered maps modelled as association lists). -/
structure Manifest where
  version : Version
  dependencies : List (Name × DepReq)
  devDependencies : List (Name × DepReq)
deriving DecidableEq

/-- Error kinds referenced by the embedded code paths; the names follow
util/errors.rs uses in src and the spec taxonomy. -/
inductive ErrorKind where
  | MissingManifest : ErrorKind
  | InvalidIndex : ErrorKind
  | InvalidManifest : ErrorKind
  | InvalidManifestFile : ErrorKind
  | InvalidSourceUrl : ErrorKind
  | InvalidPackageId : ErrorKind
  | FetchFailure : ErrorKind
  | LockAcquisitionFailure : ErrorKind
deriving DecidableEq

/-- FromStr for PkgGitSpecifier from package/manifest.rs: split at the first
equals sign into a format tag and a specifier; an unknown tag or a missing
separator is InvalidSourceUrl. -/
def splitFirstEq : List Char → Option (List Char × List Char)
  | [] => none
  | c :: rest =>
    if c = '=' then some ([], rest)
    else
      match splitFirstEq rest with
      | some pr => some (c :: pr.1, pr.2)
      | none => none

def PkgGitSpecifier.fromStr (s : String) : Except ErrorKind PkgGitSpecifier :=
  match splitFirstEq s.data with
  | none => Except.error ErrorKind.InvalidSourceUrl
  | some pr =>
    let fmt := String.mk pr.1
    let spec := String.mk pr.2
    if fmt = "branch" then Except.ok (PkgGitSpecifier.Branch spec)
    else if fmt = "commit" then Except.ok (PkgGitSpecifier.Commit spec)
    else if fmt = "tag" then Except.ok (PkgGitSpecifier.Tag spec)
    else Except.error ErrorKind.InvalidSourceUrl

/-! ### Cache model (retrieve/cache.rs) -/

/-- CacheMeta from cache.rs: the resolved version and the translated
dependency map. -/
structure CacheMeta where
  version : Version
  deps : List (PackageId × Constraint)
deriving DecidableEq

/-- Source as constructed at the end of checkout_source in cache.rs. -/
structure Source where
  manifest : Manifest
  meta : CacheMeta
  location : DirectRes
  path : String
deriving DecidableEq

/-- Build from cache.rs: a summary and its content-derived hash string. -/
structure Build where
  summary : Summary
  hash : String
deriving DecidableEq

/-- The bytes Build::new feeds to the hasher for one resolved node: the id
string, the version string, and the checksum string. -/
def nodeBytes (nd : ResolvedNode) : List Char :=
  nd.summary.id.toString.data ++ nd.summary.version.str.data ++
    nd.summary.hash.toString.data

/-- The whole byte stream Build::new folds over the ordered sub-tree. -/
def buildInput (l : List ResolvedNode) : List Char := l.flatMap nodeBytes

/-- Build::new from cache.rs.  The source unwraps the sub_tree Result; the
panic on a summary that is not in the resolution tree is modelled by none. -/
def Build.new? (hf : List Char → List Char) (summary : Summary) (resolve : Solve) :
    Option Build :=
  match resolve.subTree summary with
  | none => none
  | some l =>
    some { summary := summary, hash := String.mk (hexify (hf (buildInput l))) }

/-- Cache from cache.rs: the cache root directory and the default index (the
reqwest client and the logger are I/O handles with no bearing on the embedded
logic). -/
structure Cache where
  location : String
  defIndex : IndexRes

/-- The version bytes Cache::get_src_dir hashes: present exactly when a
version was supplied and the locator is a tarball (the source matches on the
option first and then on the locator). -/
def versionBytes (loc : DirectRes) (v : Option Version) : List Char :=
  match v with
  | some vv =>
    match loc with
    | DirectRes.Tar _ _ => vv.str.data
    | _ => []
  | none => []

/-- The byte stream Cache::get_src_dir feeds to the hasher: name bytes, then
locator string bytes, then the version bytes. -/
def srcInput (name : Name) (loc : DirectRes) (v : Option Version) : List Char :=
  name.str.data ++ (loc.toString.data ++ versionBytes loc v)

/-- Cache::get_src_dir from cache.rs: group, underscore, name, dash, and the
hex digest of the input stream. -/
def getSrcDir (hf : List Char → List Char) (name : Name) (loc : DirectRes)
    (v : Option Version) : String :=
  name.group ++ "_" ++ name.name ++ "-" ++ String.mk (hexify (hf (srcInput name loc v)))

/-- The canonical source path cache.rs builds by pushing src and the directory
name onto the cache root. -/
def Cache.srcPath (c : Cache) (hf : List Char → List Char) (name : Name)
    (loc : DirectRes) (v : Option Version) : String :=
  c.location ++ "/src/" ++ getSrcDir hf name loc v

/-- Filesystem state: which paths exist on disk, and which of them have had
their retrieval completed (populated).  Cache::check consults existence only;
population is tracked to state the observability claims. -/
structure FSState where
  present : String → Bool
  populated : String → Bool

def FSState.addPresent (st : FSState) (p : String) : FSState :=
  { present := fun q => if q = p then true else st.present q,
    populated := st.populated }

def FSState.markPopulated (st : FSState) (p : String) : FSState :=
  { present := st.present,
    populated := fun q => if q = p then true else st.populated q }

/-- Events the cache operations perform, for stating ordering and counting
properties: lock acquisition on a path, and retrieval of a locator into a
path. -/
inductive Event where
  | acquire : String → Event
  | retrieve : DirectRes → String → Event
deriving DecidableEq

def countRetrieve : List Event → Nat
  | [] => 0
  | Event.retrieve _ _ :: t => countRetrieve t + 1
  | _ :: t => countRetrieve t

/-- Cache::check from cache.rs: a Dir locator is answered with its literal
path immediately; any other locator is present exactly when its canonical
hashed path exists on disk. -/
def Cache.check (c : Cache) (hf : List Char → List Char) (present : String → Bool)
    (name : Name) (loc : DirectRes) (v : Option Version) : Option String :=
  match loc with
  | DirectRes.Dir url => some url
  | _ =>
    let path := c.srcPath hf name loc v
    if present path then some path else none

/-- Result of Cache::load: the locked path or an error, the events performed,
and the filesystem state afterwards. -/
structure LoadOut where
  res : Except ErrorKind String
  events : List Event
  post : FSState

/-- Cache::load from cache.rs: lock and return the checked path when cached;
otherwise acquire the lock on the canonical path (DirLock::acquire creates the
directory, modelled from the spec) and then retrieve into the locked
directory.  Lock acquisition is modelled as succeeding; retrieval success is
the retrieveOk parameter, and only a successful retrieval marks the path
populated. -/
def Cache.load (c : Cache) (hf : List Char → List Char) (st : FSState)
    (pkg : PackageId) (loc : DirectRes) (v : Option Version)
    (retrieveOk : Bool) : LoadOut :=
  match c.check hf st.present pkg.name loc v with
  | some path =>
    { res := Except.ok path, events := [Event.acquire path],
      post := st.addPresent path }
  | none =>
    let p := c.srcPath hf pkg.name loc v
    let st1 := st.addPresent p
    if retrieveOk then
      { res := Except.ok p, events := [Event.acquire p, Event.retrieve loc p],
        post := st1.markPopulated p }
    else
      { res := Except.error ErrorKind.FetchFailure,
        events := [Event.acquire p, Event.retrieve loc p], post := st1 }

/-- IndexMap::insert semantics used for the deps map in checkout_source: an
existing key keeps its position and has its value replaced; a new key is
appended. -/
def insertIM (m : List (PackageId × Constraint)) (kv : PackageId × Constraint) :
    List (PackageId × Constraint) :=
  if m.any fun e => decide (e.1 = kv.1) then
    m.map fun e => if e.1 = kv.1 then (e.1, kv.2) else e
  else m ++ [kv]

/-- Cache::checkout_source from cache.rs: load the checkout directory, open
the manifest file at its root (MissingManifest when absent), parse it
(the source wraps a parse failure as InvalidIndex), and translate the
dependencies table through into_dep with the default index; dev dependencies
are ignored.  The manifest file contents on disk are the files map and the
external toml parser is the parse parameter. -/
def Cache.checkoutSource (c : Cache) (hf : List Char → List Char)
    (parse : String → Option Manifest) (st : FSState)
    (files : String → Option String) (pkg : PackageId) (loc : DirectRes)
    (v : Option Version) (retrieveOk : Bool) : Except ErrorKind Source :=
  match (c.load hf st pkg loc v retrieveOk).res with
  | Except.error e => Except.error e
  | Except.ok p =>
    match files (p ++ "/" ++ "Cargo.toml") with
    | none => Except.error ErrorKind.MissingManifest
    | some contents =>
      match parse contents with
      | none => Except.error ErrorKind.InvalidIndex
      | some manifest =>
        let deps := manifest.dependencies.foldl
          (fun m pr => insertIM m (DepReq.intoDep pr.2 c.defIndex pr.1)) []
        Except.ok
          { manifest := manifest,
            meta := { version := manifest.version, deps := deps },
            location := loc, path := p }

def isOkB (r : Except ErrorKind Source) : Bool :=
  match r with
  | Except.ok _ => true
  | _ => false

/-! ### Helper lemmas about the embedded operations -/

theorem checksum_toString_inj {c1 c2 : Checksum} (h : c1.toString = c2.toString) :
    c1 = c2 := by
  cases c1 with
  | mk f1 h1 =>
    cases c2 with
    | mk f2 h2 =>
      cases f1
      cases f2
      have hd : ("sha512" ++ ":").data ++ h1.data =
          ("sha512" ++ ":").data ++ h2.data := congrArg String.data h
      have := List.append_cancel_left hd
      rw [str_ext this]

/-- The stream Build::new hashes distinguishes closures that are identical
except that a single node carries a different content checksum. -/
def DiffersInOneChecksum (l1 l2 : List ResolvedNode) : Prop :=
  ∃ p q nd1 nd2, l1 = p ++ nd1 :: q ∧ l2 = p ++ nd2 :: q ∧
    nd1.summary.id = nd2.summary.id ∧
    nd1.summary.version = nd2.summary.version ∧
    nd1.summary.hash ≠ nd2.summary.hash

theorem buildInput_ne {l1 l2 : List ResolvedNode}
    (hd : DiffersInOneChecksum l1 l2) : buildInput l1 ≠ buildInput l2 := by
  obtain ⟨p, q, nd1, nd2, rfl, rfl, hid, hver, hck⟩ := hd
  intro h
  simp only [buildInput, List.flatMap_append, List.flatMap_cons] at h
  have h1 := List.append_cancel_left h
  have h2 : nodeBytes nd1 = nodeBytes nd2 := List.append_cancel_right h1
  have h2e : (nd1.summary.id.toString.data ++ nd1.summary.version.str.data) ++
        nd1.summary.hash.toString.data =
      (nd2.summary.id.toString.data ++ nd2.summary.version.str.data) ++
        nd2.summary.hash.toString.data := h2
  rw [hid, hver] at h2e
  have h3 := List.append_cancel_left h2e
  exact hck (checksum_toString_inj (str_ext h3))

theorem build_hash_eq_of_subTree {hf : List Char → List Char} {g : Solve}
    {s : Summary} {l : List ResolvedNode} (h : g.subTree s = some l) :
    Build.new? hf s g =
      some { summary := s, hash := String.mk (hexify (hf (buildInput l))) } := by
  rw [Build.new?, h]

/-- Reversed decomposition of a get_src_dir path: the hex digest, then the
dash, then the reversed name components. -/
theorem getSrcDir_data_reverse (hf : List Char → List Char) (n : Name)
    (loc : DirectRes) (v : Option Version) :
    (getSrcDir hf n loc v).data.reverse =
      (hexify (hf (srcInput n loc v))).reverse ++
        '-' :: (n.name.data.reverse ++ '_' :: n.group.data.reverse) := by
  show (n.group ++ "_" ++ n.name ++ "-" ++
      String.mk (hexify (hf (srcInput n loc v)))).data.reverse = _
  simp only [str_data_append, List.reverse_append, List.append_assoc]
  rfl

/-- Core inversion: when a collision-free digest is used, equal src-directory
paths force equal hashed input streams and equal reversed suffix data for the
name components. -/
theorem getSrcDir_eq_inv {hf : List Char → List Char}
    (hinj : Function.Injective hf) {n1 n2 : Name} {l1 l2 : DirectRes}
    {v1 v2 : Option Version}
    (h : getSrcDir hf n1 l1 v1 = getSrcDir hf n2 l2 v2) :
    srcInput n1 l1 v1 = srcInput n2 l2 v2 ∧
      n1.name.data.reverse ++ '_' :: n1.group.data.reverse =
        n2.name.data.reverse ++ '_' :: n2.group.data.reverse := by
  have hd := congrArg (fun s => s.data.reverse) h
  simp only [getSrcDir_data_reverse] at hd
  have hsplit := sep_split
    (fun hm => dash_not_mem_hexify _ (List.mem_reverse.mp hm))
    (fun hm => dash_not_mem_hexify _ (List.mem_reverse.mp hm)) hd
  refine ⟨?_, hsplit.2⟩
  have hhex : hexify (hf (srcInput n1 l1 v1)) = hexify (hf (srcInput n2 l2 v2)) :=
    List.reverse_injective hsplit.1
  exact hinj (hexify_inj hhex)

/-- A name is recovered from its reversed underscore form together with its
serialization. -/
theorem name_of_rev_eq {n1 n2 : Name}
    (hu : n1.name.data.reverse ++ '_' :: n1.group.data.reverse =
      n2.name.data.reverse ++ '_' :: n2.group.data.reverse)
    (hs : n1.str = n2.str) : n1 = n2 := by
  have hsd := congrArg (fun s => s.data.reverse) hs
  simp only [Name.str, str_data_append, List.reverse_append, List.append_assoc] at hsd
  have hsd2 : n1.name.data.reverse ++ '/' :: n1.group.data.reverse =
      n2.name.data.reverse ++ '/' :: n2.group.data.reverse := by
    simpa using hsd
  have := two_sep_split (by decide : ('_' : Char) ≠ '/') hu hsd2
  cases n1 with
  | mk g1 m1 =>
    cases n2 with
    | mk g2 m2 =>
      have e1 : m1 = m2 := str_ext (List.reverse_injective this.1)
      have e2 : g1 = g2 := str_ext (List.reverse_injective this.2)
      rw [e1, e2]

theorem splitFirstEq_prefix :
    ∀ (pre : List Char), (∀ c ∈ pre, c ≠ '=') →
      ∀ s, splitFirstEq (pre ++ '=' :: s) = some (pre, s) := by
  intro pre
  induction pre with
  | nil => intro _ s; simp [splitFirstEq]
  | cons c t ih =>
    intro hpre s
    have hc : c ≠ '=' := hpre c (List.mem_cons_self c t)
    have ht : ∀ d ∈ t, d ≠ '=' := fun d hd => hpre d (List.mem_cons_of_mem c hd)
    simp [splitFirstEq, hc, ih ht s]

/-! ### Claim theorems -/

/-- Claim C1: the Build hash is the hex digest of the fold, over the ordered
sub-tree of the summary, of each node id string, version string and checksum
string; and two summaries equal in name and version whose closures are
identical except for one node content checksum produce different Build hashes
(the SHA-256 digest is modelled by the parameter hf, with collision
resistance as the injectivity hypothesis hinj). -/
theorem claim_c1_build_hash (hf : List Char → List Char)
    (hinj : Function.Injective hf) :
    (∀ (g : Solve) (s : Summary) (l : List ResolvedNode), g.subTree s = some l →
        Build.new? hf s g =
          some { summary := s, hash := String.mk (hexify (hf (buildInput l))) }) ∧
    (∀ (g1 g2 : Solve) (s1 s2 : Summary) (l1 l2 : List ResolvedNode)
        (b1 b2 : Build),
        s1.id.name = s2.id.name → s1.version = s2.version →
        g1.subTree s1 = some l1 → g2.subTree s2 = some l2 →
        DiffersInOneChecksum l1 l2 →
        Build.new? hf s1 g1 = some b1 → Build.new? hf s2 g2 = some b2 →
        b1.hash ≠ b2.hash) := by
  constructor
  · intro g s l h
    exact build_hash_eq_of_subTree h
  · intro g1 g2 s1 s2 l1 l2 b1 b2 _ _ h1 h2 hdif hb1 hb2 heq
    rw [build_hash_eq_of_subTree h1] at hb1
    rw [build_hash_eq_of_subTree h2] at hb2
    have e1 := (Option.some.inj hb1).symm
    have e2 := (Option.some.inj hb2).symm
    rw [e1, e2] at heq
    have : buildInput l1 = buildInput l2 :=
      hinj (hexify_inj (congrArg String.data heq))
    exact buildInput_ne hdif this

/-- Claim C3: get_src_dir returns group, underscore, name, dash, and the hex
digest of the name bytes, then the locator string bytes, then the version
bytes exactly when the locator is a tarball and a version is present; for Dir
and Git locators the version argument does not influence the result. -/
theorem claim_c3_get_src_dir (hf : List Char → List Char) :
    (∀ (n : Name) (loc : DirectRes) (v : Option Version),
        getSrcDir hf n loc v =
          n.group ++ "_" ++ n.name ++ "-" ++
            String.mk (hexify (hf (n.str.data ++ (loc.toString.data ++
              (match loc, v with
               | DirectRes.Tar _ _, some vv => vv.str.data
               | _, _ => [])))))) ∧
    (∀ (n : Name) (url : String) (v1 v2 : Option Version),
        getSrcDir hf n (DirectRes.Dir url) v1 = getSrcDir hf n (DirectRes.Dir url) v2) ∧
    (∀ (n : Name) (repo : String) (tag : PkgGitSpecifier) (v1 v2 : Option Version),
        getSrcDir hf n (DirectRes.Git repo tag) v1 = getSrcDir hf n (DirectRes.Git repo tag) v2) := by
  refine ⟨?_, ?_, ?_⟩
  · intro n loc v
    cases loc <;> cases v <;> rfl
  · intro n url v1 v2
    cases v1 <;> cases v2 <;> rfl
  · intro n repo tag v1 v2
    cases v1 <;> cases v2 <;> rfl

/-- Claim C4, counterexample: for a Git locator the version argument is
ignored, so changing the version alone does not change the path; moreover two
distinct Git locators whose specifiers are a Branch and a Commit with the same
payload share a locator string (the Display impl writes branch for all
variants) and hence share a path, even with the injective digest id. -/
theorem claim_c4_counterexample :
    (Version.mk "1.0.0" ≠ Version.mk "2.0.0" ∧
      getSrcDir id (Name.mk "grp" "pkg")
          (DirectRes.Git "https://r" (PkgGitSpecifier.Branch "m"))
          (some (Version.mk "1.0.0")) =
        getSrcDir id (Name.mk "grp" "pkg")
          (DirectRes.Git "https://r" (PkgGitSpecifier.Branch "m"))
          (some (Version.mk "2.0.0"))) ∧
    (DirectRes.Git "https://r" (PkgGitSpecifier.Branch "x") ≠
        DirectRes.Git "https://r" (PkgGitSpecifier.Commit "x") ∧
      getSrcDir id (Name.mk "grp" "pkg")
          (DirectRes.Git "https://r" (PkgGitSpecifier.Branch "x")) none =
        getSrcDir id (Name.mk "grp" "pkg")
          (DirectRes.Git "https://r" (PkgGitSpecifier.Commit "x")) none) :=
  ⟨⟨by decide, rfl⟩, ⟨by decide, rfl⟩⟩

/-- Claim C4, amended: get_src_dir is deterministic; with a collision-free
digest, changing the name changes the path, changing the locator changes the
path whenever the locator string form changes, and changing the version
changes the path exactly for Tar locators, while Git locators ignore the
version argument. -/
theorem claim_c4_amended (hf : List Char → List Char)
    (hinj : Function.Injective hf) :
    (∀ (n1 n2 : Name) (l1 l2 : DirectRes) (v1 v2 : Option Version),
        n1 = n2 → l1 = l2 → v1 = v2 →
        getSrcDir hf n1 l1 v1 = getSrcDir hf n2 l2 v2) ∧
    (∀ (n1 n2 : Name) (loc : DirectRes) (v : Option Version),
        loc.isDir = false → n1 ≠ n2 →
        getSrcDir hf n1 loc v ≠ getSrcDir hf n2 loc v) ∧
    (∀ (n : Name) (l1 l2 : DirectRes) (v : Option Version),
        l1.isDir = false → l2.isDir = false → l1.toString ≠ l2.toString →
        getSrcDir hf n l1 v ≠ getSrcDir hf n l2 v) ∧
    (∀ (n : Name) (u : String) (ck : Option String) (v1 v2 : Version),
        v1 ≠ v2 →
        getSrcDir hf n (DirectRes.Tar u ck) (some v1) ≠
          getSrcDir hf n (DirectRes.Tar u ck) (some v2)) ∧
    (∀ (n : Name) (r : String) (t : PkgGitSpecifier) (v1 v2 : Option Version),
        getSrcDir hf n (DirectRes.Git r t) v1 = getSrcDir hf n (DirectRes.Git r t) v2) := by
  refine ⟨?_, ?_, ?_, ?_, ?_⟩
  · intro n1 n2 l1 l2 v1 v2 hn hl hv
    rw [hn, hl, hv]
  · intro n1 n2 loc v _ hne heq
    obtain ⟨hin, hrev⟩ := getSrcDir_eq_inv hinj heq
    have h1 : n1.str.data = n2.str.data := List.append_cancel_right hin
    exact hne (name_of_rev_eq hrev (str_ext h1))
  · intro n l1 l2 v hd1 hd2 hls heq
    obtain ⟨hin, _⟩ := getSrcDir_eq_inv hinj heq
    have h1 : l1.toString.data ++ versionBytes l1 v =
        l2.toString.data ++ versionBytes l2 v := List.append_cancel_left hin
    cases v with
    | none =>
      have : l1.toString.data = l2.toString.data := by
        simpa [versionBytes] using h1
      exact hls (str_ext this)
    | some vv =>
      cases l1 with
      | Dir u1 => simp [DirectRes.isDir] at hd1
      | Git r1 t1 =>
        cases l2 with
        | Dir u2 => simp [DirectRes.isDir] at hd2
        | Git r2 t2 =>
          have : (DirectRes.Git r1 t1).toString.data =
              (DirectRes.Git r2 t2).toString.data := by
            simpa [versionBytes] using h1
          exact hls (str_ext this)
        | Tar u2 ck2 =>
          have hhd : (some 'g' : Option Char) = some 't' := congrArg List.head? h1
          exact absurd hhd (by decide)
      | Tar u1 ck1 =>
        cases l2 with
        | Dir u2 => simp [DirectRes.isDir] at hd2
        | Git r2 t2 =>
          have hhd : (some 't' : Option Char) = some 'g' := congrArg List.head? h1
          exact absurd hhd (by decide)
        | Tar u2 ck2 =>
          have h2 : (DirectRes.Tar u1 ck1).toString.data ++ vv.str.data =
              (DirectRes.Tar u2 ck2).toString.data ++ vv.str.data := h1
          exact hls (str_ext (List.append_cancel_right h2))
  · intro n u ck v1 v2 hne heq
    obtain ⟨hin, _⟩ := getSrcDir_eq_inv hinj heq
    have h1 : (DirectRes.Tar u ck).toString.data ++ v1.str.data =
        (DirectRes.Tar u ck).toString.data ++ v2.str.data :=
      List.append_cancel_left hin
    have h2 := List.append_cancel_left h1
    cases v1 with
    | mk s1 =>
      cases v2 with
      | mk s2 => exact hne (congrArg Version.mk (str_ext h2))
  · intro n r t v1 v2
    cases v1 <;> cases v2 <;> rfl

/-- Claim C5: check answers a Dir locator with its literal path immediately,
for any state of the src tree; every other locator is reported present with
its canonical hashed path exactly when that path exists on disk, and absent
otherwise. -/
theorem claim_c5_check (hf : List Char → List Char) (c : Cache) :
    (∀ (present : String → Bool) (name : Name) (url : String) (v : Option Version),
        c.check hf present name (DirectRes.Dir url) v = some url) ∧
    (∀ (present : String → Bool) (name : Name) (loc : DirectRes) (v : Option Version),
        loc.isDir = false →
        c.check hf present name loc v =
          if present (c.srcPath hf name loc v) then some (c.srcPath hf name loc v)
          else none) := by
  constructor
  · intro present name url v
    rfl
  · intro present name loc v hd
    cases loc with
    | Dir url => simp [DirectRes.isDir] at hd
    | Git r t => rfl
    | Tar u ck => rfl

/-- Claim C9: the Display impl of PkgGitSpecifier writes the branch tag for
all three variants, and parsing the formatted form of a Commit or a Tag
specifier yields a Branch specifier with the same payload. -/
theorem claim_c9_gitspec :
    (∀ s, (PkgGitSpecifier.Branch s).toString = "branch=" ++ s) ∧
    (∀ s, (PkgGitSpecifier.Commit s).toString = "branch=" ++ s) ∧
    (∀ s, (PkgGitSpecifier.Tag s).toString = "branch=" ++ s) ∧
    (∀ s, PkgGitSpecifier.fromStr (PkgGitSpecifier.Commit s).toString =
        Except.ok (PkgGitSpecifier.Branch s)) ∧
    (∀ s, PkgGitSpecifier.fromStr (PkgGitSpecifier.Tag s).toString =
        Except.ok (PkgGitSpecifier.Branch s)) := by
  have key : ∀ s : String, PkgGitSpecifier.fromStr ("branch=" ++ s) =
      Except.ok (PkgGitSpecifier.Branch s) := by
    intro s
    have e : ("branch=" ++ s).data = "branch".data ++ '=' :: s.data := rfl
    rw [PkgGitSpecifier.fromStr, e,
      splitFirstEq_prefix "branch".data (by decide) s.data]
    rfl
  exact ⟨fun _ => rfl, fun _ => rfl, fun _ => rfl, fun s => key s, fun s => key s⟩

/-- Claim C10: Build::new unwraps the sub_tree Result: it returns a Build
exactly when the summary is a node of the resolved graph, and the panic on a
missing summary is modelled by none. -/
theorem claim_c10_build_unwrap (hf : List Char → List Char) (s : Summary)
    (g : Solve) :
    (g.subTree s = none → Build.new? hf s g = none) ∧
    (∀ l, g.subTree s = some l → ∃ b, Build.new? hf s g = some b) := by
  constructor
  · intro h
    rw [Build.new?, h]
  · intro l h
    exact ⟨_, build_hash_eq_of_subTree h⟩

/-! ### Load and checkout-source lemmas -/

theorem countRetrieve_append (a b : List Event) :
    countRetrieve (a ++ b) = countRetrieve a + countRetrieve b := by
  induction a with
  | nil => simp [countRetrieve]
  | cons e t ih =>
    cases e with
    | acquire p => simp [countRetrieve, ih]
    | retrieve l p => simp [countRetrieve, ih]; omega

theorem load_count_le_one (hf : List Char → List Char) (c : Cache)
    (st : FSState) (pkg : PackageId) (loc : DirectRes) (v : Option Version)
    (ok : Bool) : countRetrieve (c.load hf st pkg loc v ok).events ≤ 1 := by
  cases hc : c.check hf st.present pkg.name loc v <;> cases ok <;>
    simp [Cache.load, hc, countRetrieve]

theorem check_none_present {hf : List Char → List Char} {c : Cache}
    {present : String → Bool} {name : Name} {loc : DirectRes}
    {v : Option Version} (h : c.check hf present name loc v = none) :
    present (c.srcPath hf name loc v) = false := by
  cases loc with
  | Dir url => simp [Cache.check] at h
  | Git r t =>
    by_contra hb
    simp only [Bool.not_eq_false] at hb
    simp [Cache.check, hb] at h
  | Tar u ck =>
    by_contra hb
    simp only [Bool.not_eq_false] at hb
    simp [Cache.check, hb] at h

theorem check_none_not_dir {hf : List Char → List Char} {c : Cache}
    {present : String → Bool} {name : Name} {loc : DirectRes}
    {v : Option Version} (h : c.check hf present name loc v = none) :
    loc.isDir = false := by
  cases loc with
  | Dir url => simp [Cache.check] at h
  | Git r t => rfl
  | Tar u ck => rfl

theorem check_present_some {hf : List Char → List Char} {c : Cache}
    {present : String → Bool} {name : Name} {loc : DirectRes}
    {v : Option Version} (hd : loc.isDir = false)
    (hp : present (c.srcPath hf name loc v) = true) :
    c.check hf present name loc v = some (c.srcPath hf name loc v) := by
  cases loc with
  | Dir url => simp [DirectRes.isDir] at hd
  | Git r t => simp [Cache.check, hp]
  | Tar u ck => simp [Cache.check, hp]

theorem load_post_present (hf : List Char → List Char) (c : Cache)
    (st : FSState) (pkg : PackageId) (loc : DirectRes) (v : Option Version)
    (ok : Bool) (h : c.check hf st.present pkg.name loc v = none) :
    (c.load hf st pkg loc v ok).post.present (c.srcPath hf pkg.name loc v) = true := by
  cases ok <;> simp [Cache.load, h, FSState.addPresent, FSState.markPopulated]

/-- Claim C2: when check finds a cached path, load locks and returns exactly
that path with no retrieval; when check finds nothing, load acquires the lock
on the canonical path while that path does not yet exist and then retrieves
exactly once into it, in that order; consequently two sequential loads with
the same key retrieve at most once. -/
theorem claim_c2_load (hf : List Char → List Char) (c : Cache) (st : FSState)
    (pkg : PackageId) (loc : DirectRes) (v : Option Version) :
    (∀ (ok : Bool) (path : String),
        c.check hf st.present pkg.name loc v = some path →
        (c.load hf st pkg loc v ok).res = Except.ok path ∧
        (c.load hf st pkg loc v ok).events = [Event.acquire path]) ∧
    (∀ ok : Bool, c.check hf st.present pkg.name loc v = none →
        st.present (c.srcPath hf pkg.name loc v) = false ∧
        (c.load hf st pkg loc v ok).events =
          [Event.acquire (c.srcPath hf pkg.name loc v),
           Event.retrieve loc (c.srcPath hf pkg.name loc v)]) ∧
    (∀ ok1 ok2 : Bool,
        countRetrieve ((c.load hf st pkg loc v ok1).events ++
          (c.load hf (c.load hf st pkg loc v ok1).post pkg loc v ok2).events) ≤ 1) := by
  refine ⟨?_, ?_, ?_⟩
  · intro ok path h
    constructor <;> simp [Cache.load, h]
  · intro ok h
    refine ⟨check_none_present h, ?_⟩
    cases ok <;> simp [Cache.load, h]
  · intro ok1 ok2
    rw [countRetrieve_append]
    cases hc : c.check hf st.present pkg.name loc v with
    | some path =>
      have e1 : countRetrieve (c.load hf st pkg loc v ok1).events = 0 := by
        simp [Cache.load, hc, countRetrieve]
      have e2 := load_count_le_one hf c (c.load hf st pkg loc v ok1).post pkg loc v ok2
      omega
    | none =>
      have hnd := check_none_not_dir hc
      have hpost := load_post_present hf c st pkg loc v ok1 hc
      have hc2 := check_present_some hnd hpost
      have e1 : countRetrieve (c.load hf st pkg loc v ok1).events = 1 := by
        cases ok1 <;> simp [Cache.load, hc, countRetrieve]
      have e2 : countRetrieve
          (c.load hf (c.load hf st pkg loc v ok1).post pkg loc v ok2).events = 0 := by
        generalize hgen : (c.load hf st pkg loc v ok1).post = st2 at hc2
        simp [Cache.load, hc2, countRetrieve]
      omega

theorem intoDep_fst_name (d : DepReq) (di : IndexRes) (n : Name) :
    (DepReq.intoDep d di n).1.name = n := by
  cases d <;> rfl

theorem foldl_insertIM_eq_map (di : IndexRes) :
    ∀ (l : List (Name × DepReq)) (acc : List (PackageId × Constraint)),
      (∀ e ∈ acc, ∀ pr ∈ l, e.1.name ≠ pr.1) → (l.map Prod.fst).Nodup →
      l.foldl (fun m pr => insertIM m (DepReq.intoDep pr.2 di pr.1)) acc =
        acc ++ l.map (fun pr => DepReq.intoDep pr.2 di pr.1) := by
  intro l
  induction l with
  | nil => intro acc _ _; simp
  | cons pr t ih =>
    intro acc hdisj hnodup
    have hnodup2 : (pr.1 :: t.map Prod.fst).Nodup := by simpa using hnodup
    have hany : (acc.any fun e =>
        decide (e.1 = (DepReq.intoDep pr.2 di pr.1).1)) = false := by
      rw [List.any_eq_false]
      intro e he
      simp only [decide_eq_true_eq]
      intro hkey
      exact hdisj e he pr (List.mem_cons_self pr t)
        (by rw [hkey, intoDep_fst_name])
    have hins : insertIM acc (DepReq.intoDep pr.2 di pr.1) =
        acc ++ [DepReq.intoDep pr.2 di pr.1] := by
      simp [insertIM, hany]
    rw [List.foldl_cons, hins,
      ih (acc ++ [DepReq.intoDep pr.2 di pr.1]) ?_ (List.nodup_cons.mp hnodup2).2]
    · simp
    · intro e he pr2 hpr2
      rcases List.mem_append.mp he with hacc | hkv
      · exact hdisj e hacc pr2 (List.mem_cons_of_mem pr hpr2)
      · have he2 : e = DepReq.intoDep pr.2 di pr.1 := by simpa using hkv
        rw [he2, intoDep_fst_name]
        intro hcontra
        exact (List.nodup_cons.mp hnodup2).1
          (hcontra ▸ List.mem_map_of_mem Prod.fst hpr2)

/-- Claim C8: checkout_source builds the meta deps by translating exactly the
entries of the manifest dependencies table through into_dep with the default
index of the cache; dev dependencies never contribute.  A plain registry
requirement takes the default index, a pinned one takes its own registry, and
local and git requirements become direct resolutions with the any
constraint. -/
theorem claim_c8_checkout_deps (hf : List Char → List Char)
    (parse : String → Option Manifest) (c : Cache) (st : FSState)
    (files : String → Option String) (pkg : PackageId) (loc : DirectRes)
    (v : Option Version) (ok : Bool) (p contents : String) (mf : Manifest)
    (hload : (c.load hf st pkg loc v ok).res = Except.ok p)
    (hfile : files (p ++ "/" ++ "Cargo.toml") = some contents)
    (hparse : parse contents = some mf)
    (hkeys : (mf.dependencies.map Prod.fst).Nodup) :
    c.checkoutSource hf parse st files pkg loc v ok =
      Except.ok
        { manifest := mf,
          meta := { version := mf.version,
                    deps := mf.dependencies.map
                      (fun pr => DepReq.intoDep pr.2 c.defIndex pr.1) },
          location := loc, path := p } ∧
    (∀ (n : Name) (di : IndexRes) (cc : Constraint),
        DepReq.intoDep (DepReq.Registry cc) di n =
          ({ name := n, resolution := Resolution.Index di.url }, cc)) ∧
    (∀ (n : Name) (di : IndexRes) (cc : Constraint) (reg : IndexRes),
        DepReq.intoDep (DepReq.RegLong cc reg) di n =
          ({ name := n, resolution := Resolution.Index reg.url }, cc)) ∧
    (∀ (n : Name) (di : IndexRes) (pathd : String),
        DepReq.intoDep (DepReq.Local pathd) di n =
          ({ name := n, resolution := Resolution.Dir pathd }, Constraint.any)) ∧
    (∀ (n : Name) (di : IndexRes) (r : String) (sp : PkgGitSpecifier),
        DepReq.intoDep (DepReq.Git r sp) di n =
          ({ name := n, resolution := Resolution.Git r sp }, Constraint.any)) := by
  refine ⟨?_, fun _ _ _ => rfl, fun _ _ _ _ => rfl, fun _ _ _ => rfl,
    fun _ _ _ _ => rfl⟩
  simp only [Cache.checkoutSource, hload, hfile, hparse]
  rw [foldl_insertIM_eq_map c.defIndex mf.dependencies [] (by simp) hkeys]
  simp

/-! ### Concrete fixtures -/

def nameA : Name := { group := "grp", name := "pkg" }

def verA : Version := { str := "1.0.0" }

def ckA : Checksum := { fmt := ChecksumFmt.Sha512, hash := "aaaa" }

def ckB : Checksum := { fmt := ChecksumFmt.Sha512, hash := "bbbb" }

def idxA : IndexRes := { url := "https://idx" }

def resA : Resolution := Resolution.Index "https://idx"

def pidA : PackageId := { name := nameA, resolution := resA }

def sumA : Summary := { id := pidA, version := verA, hash := ckA }

def sumB : Summary := { id := pidA, version := verA, hash := ckB }

def ndA : ResolvedNode := { summary := sumA }

def ndB : ResolvedNode := { summary := sumB }

def solveA : Solve := { subTree := fun s => if s = sumA then some [ndA] else none }

def solveB : Solve := { subTree := fun s => if s = sumB then some [ndB] else none }

def solveEmpty : Solve := { subTree := fun _ => none }

def locGitA : DirectRes := DirectRes.Git "https://r" (PkgGitSpecifier.Branch "master")

def cache0 : Cache := { location := "/elba", defIndex := idxA }

def pkg0 : PackageId := { name := nameA, resolution := resA }

def st0 : FSState := { present := fun _ => false, populated := fun _ => false }

def mfX : Manifest :=
  { version := verA,
    dependencies := [(Name.mk "a" "x", DepReq.Registry (Constraint.range "^1"))],
    devDependencies := [(Name.mk "b" "y", DepReq.Registry Constraint.any)] }

def parseNone : String → Option Manifest := fun _ => none

def parseSome : String → Option Manifest := fun _ => some mfX

def filesNone : String → Option String := fun _ => none

def filesSome : String → Option String := fun _ => some "raw"

/-- Claim C6: on the concrete cache, a missing manifest file fails with
MissingManifest; a manifest that fails to parse fails with InvalidIndex, which
is not the InvalidManifest kind the claim names; a manifest that opens and
parses successfully yields a Source. -/
theorem claim_c6_manifest_errors :
    cache0.checkoutSource id parseNone st0 filesNone pkg0 locGitA none true =
      Except.error ErrorKind.MissingManifest ∧
    cache0.checkoutSource id parseNone st0 filesSome pkg0 locGitA none true =
      Except.error ErrorKind.InvalidIndex ∧
    ErrorKind.InvalidIndex ≠ ErrorKind.InvalidManifest ∧
    isOkB (cache0.checkoutSource id parseSome st0 filesSome pkg0 locGitA none true) = true :=
  ⟨rfl, rfl, by decide, rfl⟩

set_option maxRecDepth 100000 in
/-- Claim C7: on the concrete cache, a not-yet-cached key whose retrieval
fails still leaves its canonical path observable: before the load, check
reports the key absent; the load fails with FetchFailure, yet afterwards check
reports the path present although it was never populated. -/
theorem claim_c7_premature_presence :
    cache0.check id st0.present nameA locGitA none = none ∧
    (cache0.load id st0 pkg0 locGitA none false).res =
      Except.error ErrorKind.FetchFailure ∧
    cache0.check id (cache0.load id st0 pkg0 locGitA none false).post.present
        nameA locGitA none = some (cache0.srcPath id nameA locGitA none) ∧
    (cache0.load id st0 pkg0 locGitA none false).post.populated
        (cache0.srcPath id nameA locGitA none) = false :=
  ⟨rfl, rfl, rfl, rfl⟩

/-! ### Witnesses -/

theorem claim_c1_build_hash_witness :
    (Build.new? id sumA solveA).map Build.hash ≠
      (Build.new? id sumB solveB).map Build.hash := by
  have h1 : solveA.subTree sumA = some [ndA] := by simp [solveA]
  have h2 : solveB.subTree sumB = some [ndB] := by simp [solveB]
  have hb1 := (claim_c1_build_hash id (fun _ _ h => h)).1 solveA sumA [ndA] h1
  have hb2 := (claim_c1_build_hash id (fun _ _ h => h)).1 solveB sumB [ndB] h2
  have hne := (claim_c1_build_hash id (fun _ _ h => h)).2 solveA solveB sumA sumB
    [ndA] [ndB] _ _ rfl rfl h1 h2
    ⟨[], [], ndA, ndB, rfl, rfl, rfl, rfl, by decide⟩ hb1 hb2
  intro hcontra
  rw [hb1, hb2] at hcontra
  exact hne (Option.some.inj hcontra)

theorem claim_c2_load_witness :
    (cache0.load id st0 pkg0 locGitA none true).events =
      [Event.acquire (cache0.srcPath id pkg0.name locGitA none),
       Event.retrieve locGitA (cache0.srcPath id pkg0.name locGitA none)] ∧
    countRetrieve ((cache0.load id st0 pkg0 locGitA none true).events ++
      (cache0.load id (cache0.load id st0 pkg0 locGitA none true).post pkg0
        locGitA none true).events) ≤ 1 :=
  ⟨((claim_c2_load id cache0 st0 pkg0 locGitA none).2.1 true rfl).2,
    (claim_c2_load id cache0 st0 pkg0 locGitA none).2.2 true true⟩

theorem claim_c4_amended_witness :
    getSrcDir id nameA (DirectRes.Tar "https://t" none) (some verA) ≠
      getSrcDir id nameA (DirectRes.Tar "https://t" none) (some (Version.mk "2.0.0")) :=
  (claim_c4_amended id (fun _ _ h => h)).2.2.2.1 nameA "https://t" none verA
    (Version.mk "2.0.0") (by decide)

theorem claim_c5_check_witness :
    cache0.check id st0.present nameA locGitA none = none := by
  have h := (claim_c5_check id cache0).2 st0.present nameA locGitA none rfl
  rw [h]
  rfl

theorem claim_c8_checkout_deps_witness :
    cache0.checkoutSource id parseSome st0 filesSome pkg0 locGitA none true =
      Except.ok
        { manifest := mfX,
          meta := { version := mfX.version,
                    deps := mfX.dependencies.map
                      (fun pr => DepReq.intoDep pr.2 cache0.defIndex pr.1) },
          location := locGitA, path := cache0.srcPath id pkg0.name locGitA none } :=
  (claim_c8_checkout_deps id parseSome cache0 st0 filesSome pkg0 locGitA none
    true (cache0.srcPath id pkg0.name locGitA none) "raw" mfX rfl rfl rfl
    (by decide)).1

theorem claim_c10_build_unwrap_witness :
    Build.new? id sumA solveEmpty = none :=
  (claim_c10_build_unwrap id sumA solveEmpty).1 rfl

end Elba
